import Mathlib

/-! Verification of the PreLogin packet encoder (WritePrelogin in
lib/srv/db/sqlserver/protocol/prelogin.go).

Bytes are modelled as Nat with explicit reduction modulo 256 / 65536 where
the Go code performs uint8 / uint16 arithmetic.  The bytes.Buffer is a
List Nat; its write methods never fail and always report the full count,
which is the documented behaviour of bytes.Buffer in the Go standard
library, so the model mirrors the source including each error check. -/

/-- Big-endian two-byte layout of a 16-bit value, as binary.Write with
binary.BigEndian and binary.BigEndian.PutUint16 lay out a uint16. -/
def be16 (n : Nat) : List Nat := [n / 256 % 256, n % 256]

/-- Reduction modulo 65536: the semantics of conversion to Go uint16 and of
uint16 addition overflow. -/
def u16 (n : Nat) : Nat := n % 65536

/-- Modelled from the spec: the fixed PreLogin packet-type tag placed in
header byte 0.  The constant is declared outside the given source tree; its
numeric value is a protocol constant and no claim depends on it. -/
def PacketTypePreLogin : Nat := 18

/-- Modelled from the spec: VERSION option kind, value 0. -/
def preloginVERSION : Nat := 0

/-- Modelled from the spec: ENCRYPTION option kind, value 1. -/
def preloginENCRYPTION : Nat := 1

/-- Modelled from the spec: INSTOPT option kind, value 2. -/
def preloginINSTOPT : Nat := 2

/-- Modelled from the spec: THREADID option kind, value 3. -/
def preloginTHREADID : Nat := 3

/-- Modelled from the spec: MARS option kind, value 4. -/
def preloginMARS : Nat := 4

/-- Modelled from the spec: the terminator sentinel kind, value 0xFF. -/
def preloginTERMINATOR : Nat := 255

/-- Modelled from the spec: the encryption-not-supported flag byte (the
ENCRYPTION option carries value 0x02 in the spec scenario). -/
def encryptNotSup : Nat := 2

/-- The eight header bytes the source preloads into the buffer: type,
status 0x1, two zero length placeholder bytes, four reserved zero bytes. -/
def header : List Nat :=
  [PacketTypePreLogin, 1, 0, 0, 0, 0, 0, 0]

/-- The hard-coded option map of WritePrelogin, as an association list.
The INSTOPT value is the bytes of "teleport" followed by a zero byte. -/
def preloginFields : List (Nat × List Nat) :=
  [(preloginVERSION, [0, 0, 0, 0, 0, 0]),
   (preloginENCRYPTION, [encryptNotSup]),
   (preloginINSTOPT, [116, 101, 108, 101, 112, 111, 114, 116, 0]),
   (preloginTHREADID, [0, 0, 0, 0]),
   (preloginMARS, [0])]

/-- The sorted key slice: the map keys collected and sorted ascending, as
sort.Sort on keySlice with Less comparing by value.  sort.Sort is not
stable, but map keys are distinct, so the sorted permutation is unique. -/
def sortedKinds (fields : List (Nat × List Nat)) : List Nat :=
  List.insertionSort (fun a b => a ≤ b) (fields.map Prod.fst)

/-- Map indexing fields[k]: the looked-up value, or the zero value (an
empty byte slice) when the key is absent. -/
def lookupValue (fields : List (Nat × List Nat)) (k : Nat) : List Nat :=
  (fields.lookup k).getD []

/-- The options in ascending-kind order, each key paired with its value,
exactly as the emission loops read v := fields[k] for k over the sorted
keys. -/
def sortedPairs (fields : List (Nat × List Nat)) : List (Nat × List Nat) :=
  (sortedKinds fields).map (fun k => (k, lookupValue fields k))

/-- The bytes produced by the descriptor loop: for each option one byte of
kind, two bytes of big-endian offset, two bytes of big-endian size, with
the uint16 running offset advanced by the uint16 size of the value. -/
def writeDescriptors : List (Nat × List Nat) → Nat → List Nat
  | [], _ => []
  | (k, v) :: rest, offset =>
      k :: (be16 offset ++ be16 (u16 v.length)
        ++ writeDescriptors rest (u16 (offset + u16 v.length)))

/-- The bytes produced by the value loop: the raw value bytes of each
option, concatenated in the order of the given list. -/
def writeValues : List (Nat × List Nat) → List Nat
  | [] => []
  | (_, v) :: rest => v ++ writeValues rest

/-- The in-place length patch: binary.BigEndian.PutUint16(pktBytes[2:],
uint16(len(pktBytes))) writes the high then the low byte of the truncated
total length into positions 2 and 3. -/
def patchLen (pkt : List Nat) : List Nat :=
  (pkt.set 2 (u16 pkt.length / 256)).set 3 (u16 pkt.length % 256)

/-- The packet bytes after the header: descriptor table, terminator byte,
value section. -/
def preloginBody (fields : List (Nat × List Nat)) : List Nat :=
  writeDescriptors (sortedPairs fields) (u16 (5 * fields.length + 1))
    ++ preloginTERMINATOR :: writeValues (sortedPairs fields)

/-- The complete packet WritePrelogin hands to the connection: header and
body with the length field patched in place. -/
def preloginPacket (fields : List (Nat × List Nat)) : List Nat :=
  patchLen (header ++ preloginBody fields)

/-- Total byte length of the value parts of a list of options. -/
def valuesLen (pairs : List (Nat × List Nat)) : Nat :=
  (pairs.map (fun p => p.2.length)).sum

/-- The uint16 running offset in force just before descriptor entry i is
emitted. -/
def offAt : List (Nat × List Nat) → Nat → Nat → Nat
  | _, off, 0 => off
  | [], off, _ + 1 => off
  | (_, v) :: rest, off, i + 1 => offAt rest (u16 (off + u16 v.length)) i

/-- The descriptor entries as triples of kind, offset and size, with the
same uint16 running-offset bookkeeping as the descriptor loop. -/
def descEntries : List (Nat × List Nat) → Nat → List (Nat × Nat × Nat)
  | [], _ => []
  | (k, v) :: rest, off =>
      (k, off, u16 v.length) :: descEntries rest (u16 (off + u16 v.length))

/-- Reading the descriptor table from its raw bytes per the documented
layout: five-byte entries of kind, big-endian offset, big-endian size,
ending at the terminator sentinel. -/
def decodeDescs : List Nat → List (Nat × Nat × Nat)
  | [] => []
  | k :: rest =>
    if k = preloginTERMINATOR then []
    else
      (k, 256 * rest.getD 0 0 + rest.getD 1 0,
        256 * rest.getD 2 0 + rest.getD 3 0) :: decodeDescs (rest.drop 4)
termination_by l => l.length
decreasing_by simp; omega

/-- Decoding a packet by the documented layout: the descriptor table starts
at byte 8, and each entry locates its value at the entry offset measured
from the start of the descriptor table. -/
def decodePrelogin (pkt : List Nat) : List (Nat × List Nat) :=
  (decodeDescs (pkt.drop 8)).map
    (fun e => (e.1, (pkt.drop (8 + e.2.1)).take e.2.2))

/-- The kind byte of descriptor entry i read from a packet. -/
def descKindAt (pkt : List Nat) (i : Nat) : Nat := pkt.getD (8 + 5 * i) 0

/-- The big-endian offset field of descriptor entry i read from a packet. -/
def descOffsetAt (pkt : List Nat) (i : Nat) : Nat :=
  256 * pkt.getD (8 + 5 * i + 1) 0 + pkt.getD (8 + 5 * i + 2) 0

/-- The big-endian size field of descriptor entry i read from a packet. -/
def descLenAt (pkt : List Nat) (i : Nat) : Nat :=
  256 * pkt.getD (8 + 5 * i + 3) 0 + pkt.getD (8 + 5 * i + 4) 0

/-- Error values of the encoder: an error surfaced by a writer, the
short-write error from errors.New in the value loop, and trace.Wrap of an
underlying error. -/
inductive WriteErr where
  | sinkErr : Nat → WriteErr
  | shortWrite : WriteErr
  | wrapped : WriteErr → WriteErr
  deriving DecidableEq, Repr

/-- bytes.Buffer WriteByte: appends the byte; the returned error is always
nil per its documented contract. -/
def bufWriteByte (buf : List Nat) (b : Nat) : List Nat × Option WriteErr :=
  (buf ++ [b], none)

/-- bytes.Buffer Write: appends the bytes and reports their full count; the
returned error is always nil per its documented contract. -/
def bufWrite (buf v : List Nat) : List Nat × Nat × Option WriteErr :=
  (buf ++ v, v.length, none)

/-- binary.Write of a big-endian uint16 into a bytes.Buffer: two bytes
appended, no error. -/
def binWriteU16 (buf : List Nat) (x : Nat) : List Nat × Option WriteErr :=
  (buf ++ be16 x, none)

/-- The descriptor-writing loop of WritePrelogin with every error check of
the source: each failing write would return its error. -/
def writeDescLoop : List (Nat × List Nat) → List Nat → Nat → Except WriteErr (List Nat)
  | [], buf, _ => Except.ok buf
  | (k, v) :: rest, buf, offset =>
    match bufWriteByte buf k with
    | (_, some e) => Except.error e
    | (buf1, none) =>
      match binWriteU16 buf1 offset with
      | (_, some e) => Except.error e
      | (buf2, none) =>
        match binWriteU16 buf2 (u16 v.length) with
        | (_, some e) => Except.error e
        | (buf3, none) => writeDescLoop rest buf3 (u16 (offset + u16 v.length))

/-- The value-writing loop of WritePrelogin over an arbitrary writer: a
writer error is returned as is, and a reported count differing from the
value length returns the short-write error of errors.New. -/
def writeValuesLoop (wr : List Nat → List Nat → List Nat × Nat × Option WriteErr) :
    List (Nat × List Nat) → List Nat → Except WriteErr (List Nat)
  | [], buf => Except.ok buf
  | (_, v) :: rest, buf =>
    match wr buf v with
    | (_, _, some e) => Except.error e
    | (buf1, written, none) =>
      if written ≠ v.length then Except.error WriteErr.shortWrite
      else writeValuesLoop wr rest buf1

/-- The in-memory packet assembly of WritePrelogin for an arbitrary option
list, with every error branch of the source retained: descriptor loop,
terminator byte, value loop against the bytes.Buffer writer, then the
in-place length patch. -/
def buildPrelogin (fields : List (Nat × List Nat)) : Except WriteErr (List Nat) :=
  match writeDescLoop (sortedPairs fields) header (u16 (5 * fields.length + 1)) with
  | Except.error e => Except.error e
  | Except.ok buf =>
    match bufWriteByte buf preloginTERMINATOR with
    | (_, some e) => Except.error e
    | (buf1, none) =>
      match writeValuesLoop bufWrite (sortedPairs fields) buf1 with
      | Except.error e => Except.error e
      | Except.ok buf2 => Except.ok (patchLen buf2)

/-- WritePrelogin against an abstract connection whose Write reports a
count and an optional error.  The result pairs the returned value of the
function with the list of writes issued to the connection; a connection
error is returned wrapped, as trace.Wrap does. -/
def writePrelogin (connWrite : List Nat → Nat × Option WriteErr) :
    Except WriteErr Unit × List (List Nat) :=
  match buildPrelogin preloginFields with
  | Except.error e => (Except.error e, [])
  | Except.ok pkt =>
    match connWrite pkt with
    | (_, some e) => (Except.error (WriteErr.wrapped e), [pkt])
    | (_, none) => (Except.ok (), [pkt])

/-- Boolean success test on the result of packet assembly. -/
def exceptIsOk : Except WriteErr (List Nat) → Bool
  | Except.ok _ => true
  | Except.error _ => false

/-- An option set inside the stated domain of the round-trip property: two
distinct non-terminator kinds, each value at most 65535 bytes long.  Its
second uint16 running offset is 11 + 65525 = 65536, which wraps to 0. -/
def wrapFields : List (Nat × List Nat) :=
  [(0, List.replicate 65525 0), (1, [7])]

/-! Helper lemmas. -/

theorem getD_drop : ∀ (l : List Nat) (n c d : Nat), (l.drop n).getD c d = l.getD (n + c) d
  | _, 0, _, _ => by simp
  | [], _ + 1, _, _ => by simp [List.getD]
  | a :: l, n + 1, c, d => by
      rw [List.drop_succ_cons, getD_drop l n c d]
      have h : n + 1 + c = (n + c) + 1 := by omega
      rw [h, List.getD_cons_succ]

theorem getD_set_ne (l : List Nat) {i j : Nat} (x d : Nat) (h : i ≠ j) :
    (l.set i x).getD j d = l.getD j d := by
  rw [List.getD_eq_getElem?_getD, List.getElem?_set_ne h, ← List.getD_eq_getElem?_getD]

theorem getD_set_self (l : List Nat) {i : Nat} (x d : Nat) (h : i < l.length) :
    (l.set i x).getD i d = x := by
  rw [List.getD_eq_getElem?_getD, List.getElem?_set, if_pos rfl, if_pos h]
  rfl

theorem getD_append_len (l1 l2 : List Nat) (n d : Nat) :
    (l1 ++ l2).getD (l1.length + n) d = l2.getD n d := by
  rw [List.getD_append_right l1 l2 d (l1.length + n) (by omega)]
  congr 1
  omega

theorem patchLen_getD (l : List Nat) {j : Nat} (d : Nat) (h : 4 ≤ j) :
    (patchLen l).getD j d = l.getD j d := by
  unfold patchLen
  rw [getD_set_ne _ _ _ (by omega : (3 : Nat) ≠ j),
    getD_set_ne _ _ _ (by omega : (2 : Nat) ≠ j)]

theorem patchLen_drop (l : List Nat) {n : Nat} (h : 4 ≤ n) :
    (patchLen l).drop n = l.drop n := by
  unfold patchLen
  rw [List.drop_set, if_pos (by omega), List.drop_set, if_pos (by omega)]

theorem patchLen_length (l : List Nat) : (patchLen l).length = l.length := by
  simp [patchLen]

theorem valuesLen_nil : valuesLen [] = 0 := rfl

theorem valuesLen_cons (k : Nat) (v : List Nat) (rest : List (Nat × List Nat)) :
    valuesLen ((k, v) :: rest) = v.length + valuesLen rest := by
  simp [valuesLen]

theorem writeDescriptors_length (pairs : List (Nat × List Nat)) (off : Nat) :
    (writeDescriptors pairs off).length = 5 * pairs.length := by
  induction pairs generalizing off with
  | nil => simp [writeDescriptors]
  | cons p rest ih =>
      obtain ⟨k, v⟩ := p
      simp [writeDescriptors, be16, ih]
      ring

theorem writeDescriptors_cons (p : Nat × List Nat) (rest : List (Nat × List Nat))
    (off : Nat) :
    writeDescriptors (p :: rest) off
      = p.1 :: (be16 off ++ be16 (u16 p.2.length)
        ++ writeDescriptors rest (u16 (off + u16 p.2.length))) := by
  obtain ⟨k, v⟩ := p
  rfl

theorem writeValues_length (pairs : List (Nat × List Nat)) :
    (writeValues pairs).length = valuesLen pairs := by
  induction pairs with
  | nil => rfl
  | cons p rest ih =>
      obtain ⟨k, v⟩ := p
      simp [writeValues, valuesLen_cons, ih]

theorem sortedKinds_perm (fields : List (Nat × List Nat)) :
    (sortedKinds fields).Perm (fields.map Prod.fst) :=
  List.perm_insertionSort _ _

theorem sortedKinds_sorted (fields : List (Nat × List Nat)) :
    List.Sorted (fun a b => a ≤ b) (sortedKinds fields) :=
  List.sorted_insertionSort _ _

theorem sortedKinds_length (fields : List (Nat × List Nat)) :
    (sortedKinds fields).length = fields.length := by
  rw [(sortedKinds_perm fields).length_eq, List.length_map]

theorem sortedPairs_length (fields : List (Nat × List Nat)) :
    (sortedPairs fields).length = fields.length := by
  simp [sortedPairs, sortedKinds_length]

theorem map_fst_sortedPairs (fields : List (Nat × List Nat)) :
    (sortedPairs fields).map Prod.fst = sortedKinds fields := by
  simp [sortedPairs, List.map_map, Function.comp_def]

theorem sortedKinds_nodup (fields : List (Nat × List Nat))
    (h : (fields.map Prod.fst).Nodup) : (sortedKinds fields).Nodup :=
  ((sortedKinds_perm fields).nodup_iff).mpr h

theorem sortedKinds_sorted_lt (fields : List (Nat × List Nat))
    (h : (fields.map Prod.fst).Nodup) :
    List.Sorted (fun a b => a < b) (sortedKinds fields) :=
  (sortedKinds_sorted fields).lt_of_le (sortedKinds_nodup fields h)

theorem lookupValue_cons_ne (k0 : Nat) (v0 : List Nat)
    (rest : List (Nat × List Nat)) (k : Nat) (h : k ≠ k0) :
    lookupValue ((k0, v0) :: rest) k = lookupValue rest k := by
  simp [lookupValue, List.lookup_cons, beq_false_of_ne h]

theorem map_lookup_self (fields : List (Nat × List Nat))
    (h : (fields.map Prod.fst).Nodup) :
    (fields.map Prod.fst).map (fun k => (k, lookupValue fields k)) = fields := by
  induction fields with
  | nil => rfl
  | cons p rest ih =>
      obtain ⟨k0, v0⟩ := p
      simp only [List.map_cons] at h ⊢
      rw [List.nodup_cons] at h
      have hhead : lookupValue ((k0, v0) :: rest) k0 = v0 := by
        simp [lookupValue, List.lookup_cons]
      rw [hhead]
      have htail : (rest.map Prod.fst).map (fun k => (k, lookupValue ((k0, v0) :: rest) k))
          = (rest.map Prod.fst).map (fun k => (k, lookupValue rest k)) := by
        apply List.map_congr_left
        intro k hk
        rw [lookupValue_cons_ne k0 v0 rest k (fun he => h.1 (he ▸ hk))]
      rw [htail, ih h.2]

theorem sortedPairs_perm (fields : List (Nat × List Nat))
    (h : (fields.map Prod.fst).Nodup) : (sortedPairs fields).Perm fields := by
  have hp := List.Perm.map (fun k => (k, lookupValue fields k)) (sortedKinds_perm fields)
  rw [map_lookup_self fields h] at hp
  exact hp

theorem valuesLen_sortedPairs (fields : List (Nat × List Nat))
    (h : (fields.map Prod.fst).Nodup) :
    valuesLen (sortedPairs fields) = valuesLen fields :=
  List.Perm.sum_eq (List.Perm.map _ (sortedPairs_perm fields h))

theorem offAt_zero (pairs : List (Nat × List Nat)) (off : Nat) :
    offAt pairs off 0 = off := by
  cases pairs <;> rfl

theorem offAt_succ_nil (off i : Nat) : offAt [] off (i + 1) = off := rfl

theorem offAt_succ_cons (k : Nat) (v : List Nat) (rest : List (Nat × List Nat))
    (off i : Nat) :
    offAt ((k, v) :: rest) off (i + 1) = offAt rest (u16 (off + u16 v.length)) i := rfl

theorem offAt_lt : ∀ (pairs : List (Nat × List Nat)) (off i : Nat),
    off < 65536 → offAt pairs off i < 65536
  | pairs, off, 0, h => by rw [offAt_zero]; exact h
  | [], _, i + 1, h => by rw [offAt_succ_nil]; exact h
  | (k, v) :: rest, off, i + 1, _ => by
      rw [offAt_succ_cons]
      exact offAt_lt rest _ i (Nat.mod_lt _ (by norm_num))

theorem offAt_eq : ∀ (pairs : List (Nat × List Nat)) (off i : Nat),
    i ≤ pairs.length → off + valuesLen pairs ≤ 65535 →
    offAt pairs off i = off + valuesLen (pairs.take i)
  | pairs, off, 0, _, _ => by simp [offAt_zero, valuesLen]
  | [], _, i + 1, hi, _ => absurd hi (by simp)
  | (k, v) :: rest, off, i + 1, hi, hb => by
      rw [valuesLen_cons] at hb
      rw [offAt_succ_cons, List.take_succ_cons, valuesLen_cons]
      have hv : u16 v.length = v.length := Nat.mod_eq_of_lt (by omega)
      rw [hv]
      have h2 : u16 (off + v.length) = off + v.length := Nat.mod_eq_of_lt (by omega)
      rw [h2, offAt_eq rest (off + v.length) i (by simpa using hi) (by omega)]
      omega

theorem writeDescriptors_drop : ∀ (i : Nat) (pairs : List (Nat × List Nat)) (off : Nat),
    (writeDescriptors pairs off).drop (5 * i)
      = writeDescriptors (pairs.drop i) (offAt pairs off i)
  | 0, pairs, off => by simp [offAt_zero]
  | i + 1, [], off => by simp [writeDescriptors, offAt_succ_nil]
  | i + 1, (k, v) :: rest, off => by
      rw [offAt_succ_cons]
      have h5 : 5 * (i + 1) = 5 * i + 1 + 1 + 1 + 1 + 1 := by ring
      rw [h5]
      show (k :: (be16 off ++ be16 (u16 v.length)
          ++ writeDescriptors rest (u16 (off + u16 v.length)))).drop _ = _
      simp only [be16, List.cons_append, List.nil_append, List.drop_succ_cons,
        List.drop_succ_cons]
      exact writeDescriptors_drop i rest _

theorem writeValues_drop : ∀ (i : Nat) (pairs : List (Nat × List Nat)),
    (writeValues pairs).drop (valuesLen (pairs.take i)) = writeValues (pairs.drop i)
  | 0, pairs => by simp [valuesLen]
  | i + 1, [] => by simp [writeValues, valuesLen]
  | i + 1, (k, v) :: rest => by
      rw [List.take_succ_cons, valuesLen_cons, List.drop_succ_cons]
      show (v ++ writeValues rest).drop (v.length + valuesLen (rest.take i)) = _
      rw [List.drop_append]
      exact writeValues_drop i rest

theorem descEntries_length : ∀ (pairs : List (Nat × List Nat)) (off : Nat),
    (descEntries pairs off).length = pairs.length
  | [], _ => rfl
  | (k, v) :: rest, off => by
      simp only [descEntries, List.length_cons]
      rw [descEntries_length rest _]

theorem descEntries_getD : ∀ (pairs : List (Nat × List Nat)) (off i : Nat),
    i < pairs.length →
    (descEntries pairs off).getD i (0, 0, 0)
      = ((pairs.getD i (0, [])).1, offAt pairs off i,
          u16 (pairs.getD i (0, [])).2.length)
  | [], _, i, h => absurd h (by simp)
  | (k, v) :: rest, off, 0, _ => by
      simp [descEntries, offAt_zero]
  | (k, v) :: rest, off, i + 1, h => by
      simp only [descEntries, List.getD_cons_succ, offAt_succ_cons]
      exact descEntries_getD rest _ i (by simpa using h)

theorem decodeDescs_encode : ∀ (pairs : List (Nat × List Nat)) (off : Nat)
    (tail : List Nat), (∀ p ∈ pairs, p.1 < 255) → off < 65536 →
    decodeDescs (writeDescriptors pairs off ++ preloginTERMINATOR :: tail)
      = descEntries pairs off
  | [], off, tail, _, _ => by
      show decodeDescs (preloginTERMINATOR :: tail) = descEntries [] off
      rw [decodeDescs, if_pos rfl]
      rfl
  | (k, v) :: rest, off, tail, hk, hoff => by
      have hk1 : k < 255 := hk (k, v) (List.mem_cons_self _ _)
      show decodeDescs ((k :: (be16 off ++ be16 (u16 v.length)
          ++ writeDescriptors rest (u16 (off + u16 v.length))))
          ++ preloginTERMINATOR :: tail) = _
      simp only [be16, List.cons_append, List.nil_append]
      rw [decodeDescs]
      rw [if_neg (by simp only [preloginTERMINATOR]; omega)]
      simp only [List.getD_cons_zero, List.getD_cons_succ, List.drop_succ_cons,
        List.drop_zero]
      have e1 : 256 * (off / 256 % 256) + off % 256 = off := by
        rw [Nat.mod_eq_of_lt (Nat.div_lt_of_lt_mul (by omega : off < 256 * 256))]
        exact Nat.div_add_mod off 256
      have sz_lt : u16 v.length < 65536 := Nat.mod_lt _ (by norm_num)
      have e2 : 256 * (u16 v.length / 256 % 256) + u16 v.length % 256 = u16 v.length := by
        rw [Nat.mod_eq_of_lt (Nat.div_lt_of_lt_mul (by omega : u16 v.length < 256 * 256))]
        exact Nat.div_add_mod _ 256
      simp only [descEntries, e1, e2]
      congr 1
      exact decodeDescs_encode rest (u16 (off + u16 v.length)) tail
        (fun p hp => hk p (List.mem_cons_of_mem _ hp))
        (by unfold u16; exact Nat.mod_lt _ (by norm_num))

theorem writeDescLoop_ok : ∀ (pairs : List (Nat × List Nat)) (buf : List Nat) (off : Nat),
    writeDescLoop pairs buf off = Except.ok (buf ++ writeDescriptors pairs off)
  | [], buf, off => by simp [writeDescLoop, writeDescriptors]
  | (k, v) :: rest, buf, off => by
      simp only [writeDescLoop, bufWriteByte, binWriteU16]
      rw [writeDescLoop_ok rest _ _]
      simp [writeDescriptors, be16, List.append_assoc]

theorem writeValuesLoop_bufWrite_ok : ∀ (pairs : List (Nat × List Nat)) (buf : List Nat),
    writeValuesLoop bufWrite pairs buf = Except.ok (buf ++ writeValues pairs)
  | [], buf => by simp [writeValuesLoop, writeValues]
  | (k, v) :: rest, buf => by
      simp only [writeValuesLoop, bufWrite]
      rw [if_neg (fun h => h rfl)]
      rw [writeValuesLoop_bufWrite_ok rest _]
      simp [writeValues, List.append_assoc]

theorem buildPrelogin_ok (fields : List (Nat × List Nat)) :
    buildPrelogin fields = Except.ok (preloginPacket fields) := by
  unfold buildPrelogin
  rw [writeDescLoop_ok]
  simp only [bufWriteByte]
  rw [writeValuesLoop_bufWrite_ok]
  simp [preloginPacket, preloginBody, List.append_assoc]

theorem length_le_valuesLen : ∀ (pairs : List (Nat × List Nat)) (p : Nat × List Nat),
    p ∈ pairs → p.2.length ≤ valuesLen pairs
  | [], p, hp => absurd hp (List.not_mem_nil p)
  | (k, v) :: rest, p, hp => by
      rw [valuesLen_cons]
      rcases List.mem_cons.mp hp with h | h
      · rw [h]
        simp
      · have := length_le_valuesLen rest p h
        omega

theorem preloginPacket_length (fields : List (Nat × List Nat)) :
    (preloginPacket fields).length
      = 9 + 5 * fields.length + valuesLen (sortedPairs fields) := by
  unfold preloginPacket preloginBody
  rw [patchLen_length]
  simp [writeDescriptors_length, writeValues_length, sortedPairs_length, header]
  omega

theorem packet_descD (fields : List (Nat × List Nat)) (i c d : Nat) (hc : c < 5)
    (hi : i < fields.length) :
    (preloginPacket fields).getD (8 + 5 * i + c) d
      = (writeDescriptors (sortedPairs fields)
          (u16 (5 * fields.length + 1))).getD (5 * i + c) d := by
  unfold preloginPacket
  rw [patchLen_getD _ _ (by omega)]
  have hH : header.length = 8 := rfl
  have h8 : 8 + 5 * i + c = header.length + (5 * i + c) := by rw [hH]; omega
  rw [h8, getD_append_len]
  unfold preloginBody
  rw [List.getD_append _ _ _ _
    (by rw [writeDescriptors_length, sortedPairs_length]; omega)]

/-- The three fields of descriptor entry i of the packet: the kind and value
length of the i-th option in ascending-kind order, and the running offset,
which equals 5*count + 1 plus the byte count of the values of the options
before position i. -/
theorem desc_field_at (fields : List (Nat × List Nat))
    (hnd : (fields.map Prod.fst).Nodup)
    (hfit : 5 * fields.length + 1 + valuesLen fields ≤ 65535)
    (i : Nat) (hi : i < fields.length) :
    descKindAt (preloginPacket fields) i = ((sortedPairs fields).getD i (0, [])).1
    ∧ descOffsetAt (preloginPacket fields) i
        = 5 * fields.length + 1 + valuesLen ((sortedPairs fields).take i)
    ∧ descLenAt (preloginPacket fields) i
        = ((sortedPairs fields).getD i (0, [])).2.length := by
  have hlen : (sortedPairs fields).length = fields.length := sortedPairs_length fields
  have hvl : valuesLen (sortedPairs fields) = valuesLen fields :=
    valuesLen_sortedPairs fields hnd
  have hoff0 : u16 (5 * fields.length + 1) = 5 * fields.length + 1 :=
    Nat.mod_eq_of_lt (by omega)
  have hi' : i < (sortedPairs fields).length := by omega
  have hdrop : (sortedPairs fields).drop i
      = (sortedPairs fields).getD i (0, []) :: (sortedPairs fields).drop (i + 1) := by
    rw [List.getD_eq_getElem _ _ hi']
    exact List.drop_eq_getElem_cons hi'
  have hofflt : offAt (sortedPairs fields) (u16 (5 * fields.length + 1)) i < 65536 :=
    offAt_lt _ _ _ (by rw [hoff0]; omega)
  have hoffeq : offAt (sortedPairs fields) (u16 (5 * fields.length + 1)) i
      = 5 * fields.length + 1 + valuesLen ((sortedPairs fields).take i) := by
    rw [offAt_eq _ _ _ (by omega) (by rw [hoff0, hvl]; omega), hoff0]
  have hszfit : ((sortedPairs fields).getD i (0, [])).2.length ≤ 65535 := by
    have hmem : (sortedPairs fields).getD i (0, []) ∈ sortedPairs fields := by
      rw [List.getD_eq_getElem _ _ hi']
      exact List.getElem_mem hi'
    have := length_le_valuesLen _ _ hmem
    omega
  have hsz : u16 ((sortedPairs fields).getD i (0, [])).2.length
      = ((sortedPairs fields).getD i (0, [])).2.length :=
    Nat.mod_eq_of_lt (by omega)
  have hbytes : ∀ c : Nat, c < 5 →
      (writeDescriptors (sortedPairs fields) (u16 (5 * fields.length + 1))).getD
          (5 * i + c) 0
        = (writeDescriptors ((sortedPairs fields).getD i (0, [])
            :: (sortedPairs fields).drop (i + 1))
            (offAt (sortedPairs fields) (u16 (5 * fields.length + 1)) i)).getD c 0 := by
    intro c _
    rw [← getD_drop _ (5 * i) c 0, writeDescriptors_drop, hdrop]
  constructor
  · unfold descKindAt
    have hk0 := packet_descD fields i 0 0 (by omega) hi
    have hb0 := hbytes 0 (by omega)
    rw [Nat.add_zero] at hk0 hb0
    rw [hk0, hb0, writeDescriptors_cons]
    simp [be16]
  constructor
  · unfold descOffsetAt
    rw [packet_descD fields i 1 0 (by omega) hi, packet_descD fields i 2 0 (by omega) hi,
      hbytes 1 (by omega), hbytes 2 (by omega), writeDescriptors_cons]
    simp only [be16, List.cons_append, List.nil_append,
      List.getD_cons_succ, List.getD_cons_zero]
    rw [Nat.mod_eq_of_lt (Nat.div_lt_of_lt_mul
      (by omega : offAt (sortedPairs fields) (u16 (5 * fields.length + 1)) i < 256 * 256))]
    rw [Nat.div_add_mod, hoffeq]
  · unfold descLenAt
    rw [packet_descD fields i 3 0 (by omega) hi, packet_descD fields i 4 0 (by omega) hi,
      hbytes 3 (by omega), hbytes 4 (by omega), writeDescriptors_cons]
    simp only [be16, List.cons_append, List.nil_append,
      List.getD_cons_succ, List.getD_cons_zero]
    rw [hsz]
    rw [Nat.mod_eq_of_lt (Nat.div_lt_of_lt_mul (by omega))]
    exact Nat.div_add_mod _ 256

theorem writeValues_cons (p : Nat × List Nat) (rest : List (Nat × List Nat)) :
    writeValues (p :: rest) = p.2 ++ writeValues rest := by
  obtain ⟨k, v⟩ := p
  rfl

theorem packet_drop8 (fields : List (Nat × List Nat)) :
    (preloginPacket fields).drop 8 = preloginBody fields := by
  unfold preloginPacket
  rw [patchLen_drop _ (by omega)]
  rw [show (8 : Nat) = header.length from rfl, List.drop_left]

theorem packet_value_at (fields : List (Nat × List Nat))
    (i : Nat) (hi : i < fields.length) :
    ((preloginPacket fields).drop
        (8 + (5 * fields.length + 1 + valuesLen ((sortedPairs fields).take i)))).take
        ((sortedPairs fields).getD i (0, [])).2.length
      = ((sortedPairs fields).getD i (0, [])).2 := by
  have hlen : (sortedPairs fields).length = fields.length := sortedPairs_length fields
  have hi' : i < (sortedPairs fields).length := by omega
  have hdrop : (sortedPairs fields).drop i
      = (sortedPairs fields).getD i (0, []) :: (sortedPairs fields).drop (i + 1) := by
    rw [List.getD_eq_getElem _ _ hi']
    exact List.drop_eq_getElem_cons hi'
  rw [← List.drop_drop, packet_drop8]
  unfold preloginBody
  have hD : 5 * fields.length + 1 + valuesLen ((sortedPairs fields).take i)
      = (writeDescriptors (sortedPairs fields)
          (u16 (5 * fields.length + 1))).length
        + (valuesLen ((sortedPairs fields).take i) + 1) := by
    rw [writeDescriptors_length, sortedPairs_length]
    omega
  rw [hD, List.drop_append, List.drop_succ_cons, writeValues_drop, hdrop,
    writeValues_cons, List.take_left]

theorem getD_fst_sortedPairs (fields : List (Nat × List Nat)) (m : Nat)
    (hm : m < (sortedPairs fields).length) :
    ((sortedPairs fields).getD m (0, [])).1 = (sortedKinds fields).getD m 0 := by
  have hm' : m < (sortedKinds fields).length := by
    rw [sortedKinds_length, ← sortedPairs_length]
    exact hm
  rw [List.getD_eq_getElem _ _ hm, List.getD_eq_getElem _ _ hm']
  unfold sortedPairs
  rw [List.getElem_map]

theorem sortedKinds_getD_lt (fields : List (Nat × List Nat))
    (hnd : (fields.map Prod.fst).Nodup) (i j : Nat) (hij : i < j)
    (hj : j < (sortedKinds fields).length) :
    (sortedKinds fields).getD i 0 < (sortedKinds fields).getD j 0 := by
  have hs := sortedKinds_sorted_lt fields hnd
  rw [List.getD_eq_getElem _ _ (by omega), List.getD_eq_getElem _ _ hj]
  exact List.pairwise_iff_getElem.mp hs i j (by omega) hj hij

theorem sortedPairs_kind_lt (fields : List (Nat × List Nat))
    (hk : ∀ p ∈ fields, p.1 < 255) :
    ∀ p ∈ sortedPairs fields, p.1 < 255 := by
  intro p hp
  rcases List.mem_map.mp hp with ⟨k, hkmem, rfl⟩
  have hx : k ∈ fields.map Prod.fst := ((sortedKinds_perm fields).mem_iff).mp hkmem
  rcases List.mem_map.mp hx with ⟨q, hq, rfl⟩
  exact hk q hq

theorem lookup_eq_of_perm {l1 l2 : List (Nat × List Nat)} (hperm : l1.Perm l2)
    (hnd : (l1.map Prod.fst).Nodup) (k : Nat) : l1.lookup k = l2.lookup k := by
  induction hperm with
  | nil => rfl
  | cons x h ih =>
      obtain ⟨a, b⟩ := x
      simp only [List.map_cons, List.nodup_cons] at hnd
      rw [List.lookup_cons, List.lookup_cons]
      cases hab : k == a
      · simp only []
        exact ih hnd.2
      · rfl
  | swap x y l =>
      obtain ⟨a, b⟩ := x
      obtain ⟨c, d⟩ := y
      simp only [List.map_cons, List.nodup_cons, List.mem_cons] at hnd
      have hac : c ≠ a := fun he => hnd.1 (Or.inl he)
      rw [List.lookup_cons, List.lookup_cons, List.lookup_cons, List.lookup_cons]
      cases hkc : k == c <;> cases hka : k == a
      · rfl
      · rfl
      · rfl
      · exact absurd ((eq_of_beq hkc).symm.trans (eq_of_beq hka)) hac
  | trans h1 h2 ih1 ih2 =>
      rw [ih1 hnd, ih2 (((h1.map Prod.fst).nodup_iff).mp hnd)]

theorem decode_eq_sortedPairs (fields : List (Nat × List Nat))
    (hnd : (fields.map Prod.fst).Nodup) (hk : ∀ p ∈ fields, p.1 < 255)
    (hfit : 5 * fields.length + 1 + valuesLen fields ≤ 65535) :
    decodePrelogin (preloginPacket fields) = sortedPairs fields := by
  have hlen : (sortedPairs fields).length = fields.length := sortedPairs_length fields
  have hvl : valuesLen (sortedPairs fields) = valuesLen fields :=
    valuesLen_sortedPairs fields hnd
  have hoff0 : u16 (5 * fields.length + 1) = 5 * fields.length + 1 :=
    Nat.mod_eq_of_lt (by omega)
  unfold decodePrelogin
  rw [packet_drop8]
  unfold preloginBody
  rw [decodeDescs_encode _ _ _ (sortedPairs_kind_lt fields hk) (by rw [hoff0]; omega)]
  apply List.ext_getElem
  · rw [List.length_map, descEntries_length]
  · intro j h1 h2
    have hj : j < (sortedPairs fields).length := h2
    rw [List.getElem_map]
    have hE := descEntries_getD (sortedPairs fields) (u16 (5 * fields.length + 1)) j hj
    rw [List.getD_eq_getElem _ _ (by rw [descEntries_length]; exact hj)] at hE
    rw [hE]
    have hszfit : ((sortedPairs fields).getD j (0, [])).2.length ≤ 65535 := by
      have hmem : (sortedPairs fields).getD j (0, []) ∈ sortedPairs fields := by
        rw [List.getD_eq_getElem _ _ hj]
        exact List.getElem_mem hj
      have := length_le_valuesLen _ _ hmem
      omega
    have hsz : u16 ((sortedPairs fields).getD j (0, [])).2.length
        = ((sortedPairs fields).getD j (0, [])).2.length :=
      Nat.mod_eq_of_lt (by omega)
    have hoffeq : offAt (sortedPairs fields) (u16 (5 * fields.length + 1)) j
        = 5 * fields.length + 1 + valuesLen ((sortedPairs fields).take j) := by
      rw [offAt_eq _ _ _ (by omega) (by rw [hoff0, hvl]; omega), hoff0]
    show (((sortedPairs fields).getD j (0, [])).1,
        ((preloginPacket fields).drop
          (8 + offAt (sortedPairs fields) (u16 (5 * fields.length + 1)) j)).take
          (u16 ((sortedPairs fields).getD j (0, [])).2.length))
      = (sortedPairs fields)[j]
    rw [hsz, hoffeq, packet_value_at fields j (by omega),
      ← List.getD_eq_getElem _ (0, []) hj]

theorem getD_append_at (l1 l2 : List Nat) (d n m : Nat) (h : n = l1.length + m) :
    (l1 ++ l2).getD n d = l2.getD m d := by
  rw [h]
  exact getD_append_len l1 l2 m d

theorem drop_append_at (l1 l2 : List Nat) (n m : Nat) (h : n = l1.length + m) :
    (l1 ++ l2).drop n = l2.drop m := by
  rw [h]
  exact List.drop_append m

/-! Claim theorems. -/

/-- C1 counterexample: in the packet built from the option set of the
source, the first descriptor entry (kind 0, no options of smaller kind)
stores offset 26, not the 8 + 5*5 + 1 + 0 = 34 demanded by the claim that
the offset is the cumulative byte count of header, descriptor table,
terminator and earlier values measured from the absolute start of the
packet. -/
theorem C1_counterexample :
    descOffsetAt (preloginPacket preloginFields) 0 = 26
    ∧ 8 + 5 * preloginFields.length + 1 + 0 = 34
    ∧ (26 : Nat) ≠ 34 :=
  ⟨by decide, by decide, by decide⟩

/-- C1 amended: the 16-bit offset in each descriptor entry is the byte
offset of the option value measured from the start of the descriptor table
(packet byte 8), not from the absolute start of the packet: the value bytes
of the option at position i are obtained by skipping the 8 header bytes
plus the stored offset, and the stored offset equals the cumulative byte
count of the descriptor table, terminator byte, and value bytes of the
options of smaller kind. -/
theorem C1_offset_relative_to_table (fields : List (Nat × List Nat))
    (hnd : (fields.map Prod.fst).Nodup)
    (hfit : 5 * fields.length + 1 + valuesLen fields ≤ 65535)
    (i : Nat) (hi : i < fields.length) :
    ((preloginPacket fields).drop
        (8 + descOffsetAt (preloginPacket fields) i)).take
        (descLenAt (preloginPacket fields) i)
      = ((sortedPairs fields).getD i (0, [])).2
    ∧ descOffsetAt (preloginPacket fields) i
      = 5 * fields.length + 1 + valuesLen ((sortedPairs fields).take i) := by
  obtain ⟨hK, hO, hL⟩ := desc_field_at fields hnd hfit i hi
  refine ⟨?_, hO⟩
  rw [hO, hL]
  exact packet_value_at fields i hi

/-- Witness for C1 amended at the option set of the source, position 2
(the INSTOPT option). -/
theorem C1_offset_relative_to_table_witness :
    ((preloginPacket preloginFields).drop
        (8 + descOffsetAt (preloginPacket preloginFields) 2)).take
        (descLenAt (preloginPacket preloginFields) 2)
      = ((sortedPairs preloginFields).getD 2 (0, [])).2
    ∧ descOffsetAt (preloginPacket preloginFields) 2
      = 5 * preloginFields.length + 1
        + valuesLen ((sortedPairs preloginFields).take 2) :=
  C1_offset_relative_to_table preloginFields (by decide) (by decide) 2 (by decide)

/-- C2: for the option at position i in ascending-kind order, the offset
field written into its descriptor entry equals 5*count + 1 plus the sum of
the value lengths of the options that precede it in sorted order, where
count is the number of options: offsets are measured relative to the start
of the descriptor table. -/
theorem C2_descriptor_offset (fields : List (Nat × List Nat))
    (hnd : (fields.map Prod.fst).Nodup)
    (hfit : 5 * fields.length + 1 + valuesLen fields ≤ 65535)
    (i : Nat) (hi : i < fields.length) :
    descOffsetAt (preloginPacket fields) i
      = 5 * fields.length + 1 + valuesLen ((sortedPairs fields).take i) :=
  (desc_field_at fields hnd hfit i hi).2.1

/-- Witness for C2 at the option set of the source, position 2: the stored
offset 33 equals 5*5 + 1 + (6 + 1). -/
theorem C2_descriptor_offset_witness :
    descOffsetAt (preloginPacket preloginFields) 2
      = 5 * preloginFields.length + 1
        + valuesLen ((sortedPairs preloginFields).take 2) :=
  C2_descriptor_offset preloginFields (by decide) (by decide) 2 (by decide)

/-- C3: after encoding completes, bytes 2 and 3 of the header hold, as a
big-endian 16-bit integer, the total byte length of the assembled packet
buffer. -/
theorem C3_header_length (fields : List (Nat × List Nat))
    (hnd : (fields.map Prod.fst).Nodup)
    (hfit : 9 + 5 * fields.length + valuesLen fields ≤ 65535) :
    256 * (preloginPacket fields).getD 2 0 + (preloginPacket fields).getD 3 0
      = (preloginPacket fields).length := by
  have hvl := valuesLen_sortedPairs fields hnd
  have hbuf : (header ++ preloginBody fields).length
      = 9 + 5 * fields.length + valuesLen (sortedPairs fields) := by
    have h := preloginPacket_length fields
    unfold preloginPacket at h
    rw [patchLen_length] at h
    exact h
  unfold preloginPacket patchLen
  rw [getD_set_ne _ _ _ (by omega : (3 : Nat) ≠ 2)]
  rw [getD_set_self _ _ _ (by rw [hbuf]; omega)]
  rw [getD_set_self _ _ _ (by rw [List.length_set, hbuf]; omega)]
  rw [List.length_set, List.length_set]
  have hL : u16 (header ++ preloginBody fields).length
      = (header ++ preloginBody fields).length :=
    Nat.mod_eq_of_lt (by rw [hbuf]; omega)
  rw [hL, Nat.div_add_mod]

/-- Witness for C3 at the option set of the source: the length field holds
55, the byte length of the packet. -/
theorem C3_header_length_witness :
    256 * (preloginPacket preloginFields).getD 2 0
      + (preloginPacket preloginFields).getD 3 0
      = (preloginPacket preloginFields).length :=
  C3_header_length preloginFields (by decide) (by decide)

/-- C4: in every produced packet the descriptor kind bytes are strictly
ascending, the terminator byte 0xFF immediately follows the last descriptor
entry, 0xFF never appears as a descriptor kind, and the value section
(everything after the terminator) is the concatenation of the option values
in the same ascending-kind order as the descriptor table. -/
theorem C4_layout_order (fields : List (Nat × List Nat))
    (hnd : (fields.map Prod.fst).Nodup)
    (hk : ∀ p ∈ fields, p.1 < 255)
    (hfit : 5 * fields.length + 1 + valuesLen fields ≤ 65535) :
    (∀ i j, i < j → j < fields.length →
        descKindAt (preloginPacket fields) i < descKindAt (preloginPacket fields) j)
    ∧ (preloginPacket fields).getD (8 + 5 * fields.length) 0 = preloginTERMINATOR
    ∧ (∀ i, i < fields.length →
        descKindAt (preloginPacket fields) i ≠ preloginTERMINATOR)
    ∧ (preloginPacket fields).drop (9 + 5 * fields.length)
        = writeValues (sortedPairs fields)
    ∧ (∀ i, i < fields.length →
        descKindAt (preloginPacket fields) i
          = ((sortedPairs fields).getD i (0, [])).1) := by
  have hlen : (sortedPairs fields).length = fields.length := sortedPairs_length fields
  have hkinds : ∀ i, i < fields.length →
      descKindAt (preloginPacket fields) i = ((sortedPairs fields).getD i (0, [])).1 :=
    fun i hi => (desc_field_at fields hnd hfit i hi).1
  refine ⟨?_, ?_, ?_, ?_, hkinds⟩
  · intro i j hij hj
    rw [hkinds i (by omega), hkinds j hj,
      getD_fst_sortedPairs fields i (by omega), getD_fst_sortedPairs fields j (by omega)]
    exact sortedKinds_getD_lt fields hnd i j hij (by rw [sortedKinds_length]; omega)
  · unfold preloginPacket
    rw [patchLen_getD _ _ (by omega)]
    rw [getD_append_at _ _ _ _ (5 * fields.length)
      (by have hH : header.length = 8 := rfl; omega)]
    unfold preloginBody
    rw [getD_append_at _ _ _ _ 0
      (by rw [writeDescriptors_length, sortedPairs_length]; omega)]
    rfl
  · intro i hi
    rw [hkinds i hi]
    have hi' : i < (sortedPairs fields).length := by omega
    have hmem : (sortedPairs fields).getD i (0, []) ∈ sortedPairs fields := by
      rw [List.getD_eq_getElem _ _ hi']
      exact List.getElem_mem hi'
    have hlt := sortedPairs_kind_lt fields hk _ hmem
    unfold preloginTERMINATOR
    omega
  · unfold preloginPacket
    rw [patchLen_drop _ (by omega)]
    rw [drop_append_at _ _ _ (5 * fields.length + 1)
      (by have hH : header.length = 8 := rfl; omega)]
    unfold preloginBody
    rw [drop_append_at _ _ _ 1
      (by rw [writeDescriptors_length, sortedPairs_length])]
    simp

/-- Witness for C4 at the option set of the source. -/
theorem C4_layout_order_witness :
    (∀ i j, i < j → j < preloginFields.length →
        descKindAt (preloginPacket preloginFields) i
          < descKindAt (preloginPacket preloginFields) j)
    ∧ (preloginPacket preloginFields).getD (8 + 5 * preloginFields.length) 0
        = preloginTERMINATOR
    ∧ (∀ i, i < preloginFields.length →
        descKindAt (preloginPacket preloginFields) i ≠ preloginTERMINATOR)
    ∧ (preloginPacket preloginFields).drop (9 + 5 * preloginFields.length)
        = writeValues (sortedPairs preloginFields)
    ∧ (∀ i, i < preloginFields.length →
        descKindAt (preloginPacket preloginFields) i
          = ((sortedPairs preloginFields).getD i (0, [])).1) :=
  C4_layout_order preloginFields (by decide) (by decide) (by decide)

/-- C5 counterexample: for the option set wrapFields, which lies inside the
domain stated by the claim (distinct non-terminator kind bytes, each value
at most 65535 bytes), the uint16 offset of the second option wraps to 0, so
decoding the produced packet does not reproduce the original mapping. -/
theorem C5_counterexample :
    ¬ (decodePrelogin (preloginPacket wrapFields)).Perm wrapFields := by
  intro hperm
  have hpairs : sortedPairs wrapFields = wrapFields := rfl
  have hk' : ∀ p ∈ wrapFields, p.1 < 255 := by
    intro p hp
    rcases List.mem_cons.mp hp with h | hp2
    · rw [h]
      norm_num
    · rcases List.mem_cons.mp hp2 with h | hp3
      · rw [h]
        norm_num
      · exact absurd hp3 (List.not_mem_nil p)
  have hlenW : wrapFields.length = 2 := rfl
  have hDE : descEntries wrapFields (u16 (5 * wrapFields.length + 1))
      = [(0, 11, 65525), (1, 0, 1)] := by
    have hR : (List.replicate 65525 (0 : Nat)).length = 65525 :=
      List.length_replicate _ _
    have h11 : u16 (5 * wrapFields.length + 1) = 11 := by
      rw [hlenW]
      norm_num [u16]
    show descEntries ((0, List.replicate 65525 0) :: [(1, [7])])
        (u16 (5 * wrapFields.length + 1)) = _
    simp only [descEntries, hR, h11]
    norm_num [u16]
  have h2 : ((preloginPacket wrapFields).drop (8 + 0)).take 1 = [0] := by
    have h80 : 8 + 0 = 8 := rfl
    rw [h80, packet_drop8]
    unfold preloginBody
    rw [hpairs]
    rw [show wrapFields = (0, List.replicate 65525 0) :: [(1, [7])] from rfl,
      writeDescriptors_cons]
    rfl
  have hdec : decodePrelogin (preloginPacket wrapFields)
      = [(0, ((preloginPacket wrapFields).drop (8 + 11)).take 65525),
         (1, [0])] := by
    unfold decodePrelogin
    rw [packet_drop8]
    unfold preloginBody
    rw [hpairs, decodeDescs_encode wrapFields _ _ hk'
      (by rw [hlenW]; norm_num [u16]), hDE]
    simp only [List.map_cons, List.map_nil]
    rw [h2]
  have hmemW : ((1 : Nat), ([7] : List Nat)) ∈ wrapFields :=
    List.mem_cons_of_mem _ (List.mem_cons_self _ _)
  have hmem : ((1 : Nat), ([7] : List Nat)) ∈ decodePrelogin (preloginPacket wrapFields) :=
    hperm.mem_iff.mpr hmemW
  rw [hdec] at hmem
  simp [Prod.ext_iff] at hmem

/-- C5 amended: for every option set with distinct non-terminator kind
bytes whose layout fits the 16-bit offset arithmetic, that is,
5*count + 1 + total value bytes is at most 65535, decoding the produced
packet with the inverse of the layout rules reproduces exactly the
original kind-to-value mapping. -/
theorem C5_roundtrip (fields : List (Nat × List Nat))
    (hnd : (fields.map Prod.fst).Nodup) (hk : ∀ p ∈ fields, p.1 < 255)
    (hfit : 5 * fields.length + 1 + valuesLen fields ≤ 65535) :
    (decodePrelogin (preloginPacket fields)).Perm fields := by
  rw [decode_eq_sortedPairs fields hnd hk hfit]
  exact sortedPairs_perm fields hnd

/-- Witness for C5 amended at the option set of the source. -/
theorem C5_roundtrip_witness :
    (decodePrelogin (preloginPacket preloginFields)).Perm preloginFields :=
  C5_roundtrip preloginFields (by decide) (by decide) (by decide)

/-- C6: the complete assembled packet is handed to the connection in a
single write (the write trace is exactly one entry holding the whole
packet), the call returns success exactly when that write reports no error,
and a write error is returned to the caller wrapped, with no retry. -/
theorem C6_single_write (cw : List Nat → Nat × Option WriteErr) :
    (writePrelogin cw).2 = [preloginPacket preloginFields]
    ∧ ((writePrelogin cw).1 = Except.ok ()
        ↔ (cw (preloginPacket preloginFields)).2 = none)
    ∧ ∀ e : WriteErr, ((writePrelogin cw).1 = Except.error (WriteErr.wrapped e)
        ↔ (cw (preloginPacket preloginFields)).2 = some e) := by
  unfold writePrelogin
  rw [buildPrelogin_ok]
  rcases hcw : cw (preloginPacket preloginFields) with ⟨n, e⟩
  cases e with
  | none => simp [hcw]
  | some e0 => simp [hcw]

/-- Witness for C6 at a connection whose write succeeds. -/
theorem C6_single_write_witness :
    (writePrelogin (fun _ => (55, none))).2 = [preloginPacket preloginFields]
    ∧ ((writePrelogin (fun _ => (55, none))).1 = Except.ok ()
        ↔ ((fun (_ : List Nat) => ((55 : Nat), (none : Option WriteErr)))
            (preloginPacket preloginFields)).2 = none)
    ∧ ∀ e : WriteErr,
        ((writePrelogin (fun _ => (55, none))).1 = Except.error (WriteErr.wrapped e)
          ↔ ((fun (_ : List Nat) => ((55 : Nat), (none : Option WriteErr)))
              (preloginPacket preloginFields)).2 = some e) :=
  C6_single_write (fun _ => (55, none))

/-- C7: if, while appending the bytes of an option value, the writer
reports no error but fewer bytes written than the value length, the value
loop stops and returns the short-write error instead of continuing. -/
theorem C7_short_write (wr : List Nat → List Nat → List Nat × Nat × Option WriteErr)
    (buf b2 : List Nat) (k n : Nat) (v : List Nat)
    (rest : List (Nat × List Nat))
    (hw : wr buf v = (b2, n, none)) (hn : n < v.length) :
    writeValuesLoop wr ((k, v) :: rest) buf = Except.error WriteErr.shortWrite := by
  rw [writeValuesLoop, hw]
  show (if n ≠ v.length then Except.error WriteErr.shortWrite
      else writeValuesLoop wr rest b2) = Except.error WriteErr.shortWrite
  rw [if_pos (Nat.ne_of_lt hn)]

/-- Witness for C7: a writer that reports zero bytes written for a
one-byte value makes the value loop return the short-write error. -/
theorem C7_short_write_witness :
    writeValuesLoop (fun buf _ => (buf, 0, none)) [(0, [0])] []
      = Except.error WriteErr.shortWrite :=
  C7_short_write (fun buf _ => (buf, 0, none)) [] [] 0 0 [0] [] rfl (by decide)

/-- C8 counterexample: an option set containing the terminator kind 0xFF is
encoded without any error, so the encoder does not reject it. -/
theorem C8_counterexample :
    exceptIsOk (buildPrelogin [(255, [1])]) = true := by decide

/-- C8 amended: the encoder contains no validation of option kinds: an
option set containing kind 0xFF is assembled without error, the 0xFF
appearing as a descriptor kind; the invariant that the terminator kind is
never a content option holds only because the fixed option set of
WritePrelogin contains no kind 0xFF. -/
theorem C8_no_terminator_kind_check :
    preloginFields.all (fun p => p.1 != preloginTERMINATOR) = true
    ∧ exceptIsOk (buildPrelogin ((preloginTERMINATOR, [1]) :: preloginFields)) = true := by
  refine ⟨by decide, by decide⟩

/-- C9: encoding is deterministic: two option lists holding the same
mapping, in any order (any permutation with distinct kinds), produce the
same result byte for byte, because the kinds are sorted before emission. -/
theorem C9_deterministic (f1 f2 : List (Nat × List Nat)) (hperm : f1.Perm f2)
    (hnd : (f1.map Prod.fst).Nodup) :
    buildPrelogin f1 = buildPrelogin f2 := by
  have hkeys : sortedKinds f1 = sortedKinds f2 := by
    apply List.eq_of_perm_of_sorted
      ((sortedKinds_perm f1).trans ((hperm.map _).trans (sortedKinds_perm f2).symm))
      (sortedKinds_sorted f1) (sortedKinds_sorted f2)
  have hpairs : sortedPairs f1 = sortedPairs f2 := by
    unfold sortedPairs
    rw [hkeys]
    apply List.map_congr_left
    intro k _
    unfold lookupValue
    rw [lookup_eq_of_perm hperm hnd k]
  unfold buildPrelogin
  rw [hpairs, hperm.length_eq]

/-- Witness for C9: two orderings of the same two-option mapping encode to
the same packet. -/
theorem C9_deterministic_witness :
    buildPrelogin [(1, [2]), (0, [3])] = buildPrelogin [(0, [3]), (1, [2])] :=
  C9_deterministic [(1, [2]), (0, [3])] [(0, [3]), (1, [2])]
    (by decide) (by decide)

/-- C10: the in-memory buffer construction cannot fail: the descriptor loop
and the value loop over the bytes.Buffer writer always return success with
the appended bytes, buildPrelogin always returns the assembled packet, and
WritePrelogin returns success exactly when the single connection write
reports no error. -/
theorem C10_buffer_errors_unreachable :
    (∀ (pairs : List (Nat × List Nat)) (buf : List Nat) (off : Nat),
        writeDescLoop pairs buf off = Except.ok (buf ++ writeDescriptors pairs off))
    ∧ (∀ (pairs : List (Nat × List Nat)) (buf : List Nat),
        writeValuesLoop bufWrite pairs buf = Except.ok (buf ++ writeValues pairs))
    ∧ buildPrelogin preloginFields = Except.ok (preloginPacket preloginFields)
    ∧ ∀ cw : List Nat → Nat × Option WriteErr,
        ((writePrelogin cw).1 = Except.ok ()
          ↔ (cw (preloginPacket preloginFields)).2 = none) := by
  refine ⟨writeDescLoop_ok, writeValuesLoop_bufWrite_ok, buildPrelogin_ok _, ?_⟩
  intro cw
  unfold writePrelogin
  rw [buildPrelogin_ok]
  rcases hcw : cw (preloginPacket preloginFields) with ⟨n, e⟩
  cases e with
  | none => simp [hcw]
  | some e0 => simp [hcw]

